import Mathlib

/-
Verification development for the FugledeProject repository.

The first half embeds `BalancedVectors.py` (the class `BalancedVectors`),
the second half embeds `Fuglede.py` (the class `SubsetPairs`).  Ring
elements of `FiniteField(modulus)` are modelled as `ZMod modulus`
(for the prime moduli the program uses these agree), vectors as lists of
ring elements, the sentinel value `0` of `difference` as `Option.none`,
and a `print` of a passing pair in `runtest` as an entry of the returned
list.  Library collaborators (the point enumeration of a sage
`MatrixSpace`, `rref`, `rank`) are made explicit below.
-/

/-- State of a `BalancedVectors(size, modulus)` instance: the two numbers
stored by `__init__` (the field itself is `ZMod modulus`). -/
structure BVCfg where
  size : Nat
  modulus : Nat
deriving DecidableEq

/-- The derived attribute `self.quotient = self.size/self.modulus`. -/
def BVCfg.quotient (c : BVCfg) : Nat := c.size / c.modulus

/-- Constructor guard of `BalancedVectors.__init__`:
`assert size % modulus == 0`; `none` models the `AssertionError`. -/
def mkBVCfg (size modulus : Nat) : Option BVCfg :=
  if size % modulus == 0 then some ⟨size, modulus⟩ else none

/-- The method `BalancedVectors.is_balanced`: for each `i` in
`range(self.modulus)` compare `V.count(i)` with `self.quotient`, returning
`False` on the first mismatch and `True` otherwise. -/
def BVCfg.is_balanced (c : BVCfg) (vec : List (ZMod c.modulus)) : Bool :=
  (List.range c.modulus).all (fun i => vec.count ((i : Nat) : ZMod c.modulus) == c.quotient)

/-- Loop body of `BalancedVectors.elements`: walk the permutations, keep the
accumulator `lis` of already-yielded tuples, and yield exactly the tuples not
seen before. -/
def elementsAux {α : Type} [DecidableEq α] : List α → List α → List α
  | _, [] => []
  | lis, p :: rest =>
    if p ∈ lis then elementsAux lis rest else p :: elementsAux (lis ++ [p]) rest

/-- The list `[self.field(i) for i in range(self.size)]` whose permutations
`elements` enumerates. -/
def BVCfg.ringList (c : BVCfg) : List (ZMod c.modulus) :=
  (List.range c.size).map (fun (i : Nat) => (i : ZMod c.modulus))

/-- The generator `BalancedVectors.elements`, as the list of yielded vectors.
`itertools.permutations` enumerates every arrangement of the list by position
(`size!` many, with repetitions when values repeat); `List.permutations'`
produces the same arrangements, which is all the deduplicating loop sees. -/
def BVCfg.elements (c : BVCfg) : List (List (ZMod c.modulus)) :=
  elementsAux [] c.ringList.permutations'

/-- The tuple `dif = tuple([vec0[i] - vec1[i] for i in range(self.size)])`
computed inside `difference`. -/
def BVCfg.diffVec (c : BVCfg) (v0 v1 : List (ZMod c.modulus)) : List (ZMod c.modulus) :=
  (List.range c.size).map (fun i => v0.getD i 0 - v1.getD i 0)

/-- The method `BalancedVectors.difference`; the sentinel `0` standing for the
unbalanced vector is modelled by `none`. -/
def BVCfg.difference (c : BVCfg) :
    Option (List (ZMod c.modulus)) → Option (List (ZMod c.modulus)) →
      Option (List (ZMod c.modulus))
  | none, _ => none
  | some _, none => none
  | some v0, some v1 =>
    if c.is_balanced (c.diffVec v0 v1) then some (c.diffVec v0 v1) else none

/-! Helper lemmas about the deduplicating yield loop of `elements`. -/

theorem mem_elementsAux {α : Type} [DecidableEq α] (v : α) :
    ∀ (perms lis : List α), v ∈ elementsAux lis perms ↔ v ∈ perms ∧ v ∉ lis := by
  intro perms
  induction perms with
  | nil => intro lis; simp [elementsAux]
  | cons p rest ih =>
    intro lis
    by_cases hp : p ∈ lis
    · rw [elementsAux, if_pos hp, ih]
      constructor
      · rintro ⟨hr, hl⟩
        exact ⟨List.mem_cons_of_mem _ hr, hl⟩
      · rintro ⟨hr, hl⟩
        rcases List.mem_cons.mp hr with h | h
        · subst h; exact absurd hp hl
        · exact ⟨h, hl⟩
    · rw [elementsAux, if_neg hp, List.mem_cons, ih]
      constructor
      · rintro (rfl | ⟨hr, hl⟩)
        · exact ⟨List.mem_cons_self _ _, hp⟩
        · refine ⟨List.mem_cons_of_mem _ hr, fun hc => hl ?_⟩
          exact List.mem_append_left _ hc
      · rintro ⟨hr, hl⟩
        by_cases hvp : v = p
        · exact Or.inl hvp
        · have h : v ∈ rest := by
            rcases List.mem_cons.mp hr with h | h
            · exact absurd h hvp
            · exact h
          refine Or.inr ⟨h, fun hc => ?_⟩
          rcases List.mem_append.mp hc with h2 | h2
          · exact hl h2
          · exact hvp (List.mem_singleton.mp h2)

theorem nodup_elementsAux {α : Type} [DecidableEq α] :
    ∀ (perms lis : List α), (elementsAux lis perms).Nodup := by
  intro perms
  induction perms with
  | nil => intro lis; simp [elementsAux]
  | cons p rest ih =>
    intro lis
    by_cases hp : p ∈ lis
    · rw [elementsAux, if_pos hp]; exact ih lis
    · rw [elementsAux, if_neg hp]
      refine List.nodup_cons.mpr ⟨fun hc => ?_, ih (lis ++ [p])⟩
      have hmem := (mem_elementsAux p rest (lis ++ [p])).mp hc
      exact hmem.2 (List.mem_append_right _ (List.mem_singleton.mpr rfl))

/-! Counting the multiset permuted by `elements`. -/

theorem count_castRange_one (m : Nat) (hm : 0 < m) (a : ZMod m) :
    ((List.range m).map (fun (i : Nat) => (i : ZMod m))).count a = 1 := by
  haveI : NeZero m := ⟨hm.ne'⟩
  have hnd : ((List.range m).map (fun (i : Nat) => (i : ZMod m))).Nodup := by
    refine List.Nodup.map_on ?_ (List.nodup_range m)
    intro x hx y hy hxy
    have hx2 : x < m := List.mem_range.mp hx
    have hy2 : y < m := List.mem_range.mp hy
    have hv := congrArg ZMod.val hxy
    rwa [ZMod.val_cast_of_lt hx2, ZMod.val_cast_of_lt hy2] at hv
  have hmem : a ∈ (List.range m).map (fun (i : Nat) => (i : ZMod m)) :=
    List.mem_map.mpr ⟨a.val, List.mem_range.mpr (ZMod.val_lt a), ZMod.natCast_rightInverse a⟩
  exact List.count_eq_one_of_mem hnd hmem

theorem count_castRange (m : Nat) (hm : 0 < m) :
    ∀ (q : Nat) (a : ZMod m),
      ((List.range (m * q)).map (fun (i : Nat) => (i : ZMod m))).count a = q := by
  intro q
  induction q with
  | zero => intro a; simp
  | succ q ih =>
    intro a
    have hr : List.range (m * (q + 1)) =
        List.range (m * q) ++ (List.range m).map (fun i => m * q + i) := by
      rw [Nat.mul_succ, List.range_add]
    rw [hr, List.map_append, List.count_append, ih]
    have hshift : ((List.range m).map (fun i => m * q + i)).map (fun (i : Nat) => (i : ZMod m)) =
        (List.range m).map (fun (i : Nat) => (i : ZMod m)) := by
      rw [List.map_map]
      refine List.map_congr_left ?_
      intro i hi
      show ((m * q + i : Nat) : ZMod m) = (i : ZMod m)
      push_cast
      simp [ZMod.natCast_self]
    rw [hshift, count_castRange_one m hm a]

/-- C1: the set of vectors yielded by `elements()` is exactly the set of
balanced vectors of length `size` (every ring value appearing exactly
`size/modulus` times), no vector is yielded twice, and for `size = 4`,
`modulus = 2` the yield is exactly the six distinct permutations of
`(0, 0, 1, 1)`. -/
theorem C1_elements_balanced :
    (∀ c : BVCfg, 0 < c.modulus → c.modulus ∣ c.size →
      (∀ v : List (ZMod c.modulus),
        v ∈ c.elements ↔ v.length = c.size ∧ ∀ a : ZMod c.modulus, v.count a = c.quotient) ∧
      c.elements.Nodup) ∧
    List.Perm (BVCfg.mk 4 2).elements
      [[0, 0, 1, 1], [0, 1, 0, 1], [0, 1, 1, 0], [1, 0, 0, 1], [1, 0, 1, 0], [1, 1, 0, 0]] := by
  constructor
  · intro c hm hdvd
    obtain ⟨q, hq⟩ := hdvd
    have hqq : c.quotient = q := by
      rw [BVCfg.quotient, hq, Nat.mul_div_cancel_left _ hm]
    have hcount : ∀ a : ZMod c.modulus, c.ringList.count a = q := by
      intro a
      rw [BVCfg.ringList, hq]
      exact count_castRange c.modulus hm q a
    constructor
    · intro v
      have hmem : v ∈ c.elements ↔ List.Perm v c.ringList := by
        rw [BVCfg.elements, mem_elementsAux]
        simp [List.mem_permutations']
      rw [hmem]
      constructor
      · intro hperm
        refine ⟨?_, ?_⟩
        · rw [hperm.length_eq, BVCfg.ringList, List.length_map, List.length_range]
        · intro a
          rw [hperm.count_eq, hcount a, hqq]
      · rintro ⟨hlen, hcnt⟩
        rw [List.perm_iff_count]
        intro a
        rw [hcnt a, hcount a, hqq]
    · exact nodup_elementsAux _ _
  · decide

/-- C1 witness: the general part of `C1_elements_balanced` applied to the
configuration `size = 4`, `modulus = 2`. -/
theorem C1_elements_balanced_witness :
    ([0, 1, 0, 1] : List (ZMod 2)) ∈ (BVCfg.mk 4 2).elements :=
  ((C1_elements_balanced.1 (BVCfg.mk 4 2) (by decide) ⟨2, rfl⟩).1 [0, 1, 0, 1]).mpr (by decide)

/-- C6: `difference` is total on `Vector ∪ {⊥}`, the sentinel absorbs from
either side, and on genuine vectors the componentwise difference is returned
when balanced and the sentinel otherwise. -/
theorem C6_difference_total (c : BVCfg) (x : Option (List (ZMod c.modulus))) :
    c.difference none x = none ∧ c.difference x none = none ∧
    ∀ v0 v1 : List (ZMod c.modulus),
      (c.is_balanced (c.diffVec v0 v1) = true →
        c.difference (some v0) (some v1) = some (c.diffVec v0 v1)) ∧
      (c.is_balanced (c.diffVec v0 v1) = false →
        c.difference (some v0) (some v1) = none) := by
  refine ⟨?_, ?_, ?_⟩
  · cases x <;> rfl
  · cases x <;> rfl
  · intro v0 v1
    constructor
    · intro h; simp [BVCfg.difference, h]
    · intro h; simp [BVCfg.difference, h]

/-- C6 witness: `C6_difference_total` evaluated in the configuration
`size = 4`, `modulus = 2` at concrete vectors. -/
theorem C6_difference_total_witness :
    (BVCfg.mk 4 2).difference (some [0, 0, 1, 1]) (some [0, 1, 0, 1]) =
      some ((BVCfg.mk 4 2).diffVec [0, 0, 1, 1] [0, 1, 0, 1]) :=
  ((C6_difference_total (BVCfg.mk 4 2) none).2.2 [0, 0, 1, 1] [0, 1, 0, 1]).1 (by decide)

/-- C7 (amended): whenever `modulus > 1` and `size > 0`, differencing a
balanced vector with itself yields the unbalanced sentinel, the all-zero
difference vector not being balanced. -/
theorem C7_diff_self_sentinel (c : BVCfg) (hm : 1 < c.modulus) (hs : 0 < c.size)
    (v : List (ZMod c.modulus)) (_hv : v ∈ c.elements) :
    c.difference (some v) (some v) = none := by
  have hdif : c.diffVec v v = List.replicate c.size (0 : ZMod c.modulus) := by
    rw [BVCfg.diffVec]
    refine List.eq_replicate_iff.mpr ⟨by simp, ?_⟩
    intro x hx
    rcases List.mem_map.mp hx with ⟨i, _, hi⟩
    rw [← hi]
    exact sub_self _
  have hbal : c.is_balanced (c.diffVec v v) = false := by
    rw [hdif, BVCfg.is_balanced]
    refine Bool.eq_false_iff.mpr fun hall => ?_
    have h0 := List.all_eq_true.mp hall 0 (List.mem_range.mpr (by omega))
    have hc : (List.replicate c.size (0 : ZMod c.modulus)).count ((0 : Nat) : ZMod c.modulus) =
        c.quotient := by simpa using h0
    rw [Nat.cast_zero, List.count_replicate_self] at hc
    have hlt : c.quotient < c.size := Nat.div_lt_self hs hm
    omega
  simp [BVCfg.difference, hbal]

/-- C7 witness: `C7_diff_self_sentinel` at `size = 4`, `modulus = 2`,
`v = (0, 0, 1, 1)`. -/
theorem C7_diff_self_sentinel_witness :
    (BVCfg.mk 4 2).difference (some [0, 0, 1, 1]) (some [0, 0, 1, 1]) = none :=
  C7_diff_self_sentinel (BVCfg.mk 4 2) (by decide) (by decide) [0, 0, 1, 1] (by decide)

/-- C7 counterexample: in the valid configuration `size = 0`, `modulus = 2`
(so `modulus > 1`), the empty vector is a yielded balanced vector and
`difference(v, v)` returns it back instead of the sentinel. -/
theorem C7_counterexample :
    ([] : List (ZMod 2)) ∈ (BVCfg.mk 0 2).elements ∧
    (BVCfg.mk 0 2).difference (some []) (some []) = some [] ∧
    (BVCfg.mk 0 2).difference (some []) (some []) ≠ none := by
  refine ⟨?_, ?_, ?_⟩ <;> decide

/-- C8: construction fails exactly when `size` is not a multiple of
`modulus`, and otherwise returns the configured instance (the guard runs in
`__init__`, before any enumeration exists). -/
theorem C8_construction_guard (size modulus : Nat) :
    (mkBVCfg size modulus = none ↔ ¬ modulus ∣ size) ∧
    (modulus ∣ size → mkBVCfg size modulus = some ⟨size, modulus⟩) := by
  have key : (size % modulus == 0) = true ↔ modulus ∣ size := by
    rw [beq_iff_eq]
    constructor
    · exact Nat.dvd_of_mod_eq_zero
    · rintro ⟨k, rfl⟩
      exact Nat.mul_mod_right _ _
  refine ⟨⟨fun h hdvd => ?_, fun h => ?_⟩, fun h => ?_⟩
  · rw [mkBVCfg, if_pos (key.mpr hdvd)] at h
    exact Option.noConfusion h
  · rw [mkBVCfg, if_neg (fun hc => h (key.mp hc))]
  · rw [mkBVCfg, if_pos (key.mpr h)]

/-- C8 witness: `C8_construction_guard` at a divisible and a non-divisible
pair of parameters. -/
theorem C8_construction_guard_witness :
    mkBVCfg 6 3 = some ⟨6, 3⟩ ∧ mkBVCfg 5 2 = none :=
  ⟨(C8_construction_guard 6 3).2 ⟨2, rfl⟩,
   (C8_construction_guard 5 2).1.mpr (by decide)⟩

/-- C9 (amended): `is_balanced` performs no length validation: on every
sequence, matching length or not, it silently returns the count-based
verdict. -/
theorem C9_no_length_guard (c : BVCfg) (V : List (ZMod c.modulus)) :
    c.is_balanced V = true ↔
      ∀ i < c.modulus, V.count ((i : Nat) : ZMod c.modulus) = c.quotient := by
  rw [BVCfg.is_balanced, List.all_eq_true]
  constructor
  · intro h i hi
    simpa using h i (List.mem_range.mpr hi)
  · intro h i hi
    simpa using h i (List.mem_range.mp hi)

/-- C9 counterexample: on a sequence of length 3 in the configuration
`size = 4`, `modulus = 2` (expected length `modulus * quotient = 4`),
`is_balanced` does not reject: it returns the ordinary count-based
boolean `False`. -/
theorem C9_counterexample :
    (BVCfg.mk 4 2).is_balanced [0, 0, 1] = false ∧
    ([0, 0, 1] : List (ZMod 2)).length ≠
      (BVCfg.mk 4 2).modulus * (BVCfg.mk 4 2).quotient := by
  refine ⟨?_, ?_⟩ <;> decide

/-! Sum of the per-value counts of a vector of ring elements. -/

theorem sum_count_eq_length (m : Nat) (hm : 0 < m) (V : List (ZMod m)) :
    ∑ i ∈ Finset.range m, V.count ((i : Nat) : ZMod m) = V.length := by
  haveI : NeZero m := ⟨hm.ne'⟩
  induction V with
  | nil => simp
  | cons a V ih =>
    have hstep : ∀ i ∈ Finset.range m,
        (a :: V).count ((i : Nat) : ZMod m) =
          V.count ((i : Nat) : ZMod m) + if a = ((i : Nat) : ZMod m) then 1 else 0 := by
      intro i _
      rw [List.count_cons]
      simp
    rw [Finset.sum_congr rfl hstep, Finset.sum_add_distrib, ih]
    have hcongr : ∀ i ∈ Finset.range m,
        (if a = ((i : Nat) : ZMod m) then (1 : Nat) else 0) =
          if i = a.val then 1 else 0 := by
      intro i hi
      have hi2 : i < m := Finset.mem_range.mp hi
      by_cases hc : a = ((i : Nat) : ZMod m)
      · rw [if_pos hc, if_pos]
        rw [hc, ZMod.val_cast_of_lt hi2]
      · rw [if_neg hc, if_neg]
        intro he
        exact hc (by rw [he]; exact (ZMod.natCast_rightInverse a).symm)
    have hone : ∑ i ∈ Finset.range m, (if a = ((i : Nat) : ZMod m) then (1 : Nat) else 0) = 1 := by
      rw [Finset.sum_congr rfl hcongr,
        Finset.sum_ite_eq' (Finset.range m) a.val (fun _ => (1 : Nat)),
        if_pos (Finset.mem_range.mpr (ZMod.val_lt a))]
    rw [hone, List.length_cons]

/-- C10: `is_balanced` is total (it is a boolean-valued function on
sequences of ring elements), and on any sequence whose length is not
`modulus * quotient` it returns `False`, the per-value counts summing to
the length. -/
theorem C10_is_balanced_length (c : BVCfg) (V : List (ZMod c.modulus))
    (hm : 0 < c.modulus) (hlen : V.length ≠ c.modulus * c.quotient) :
    c.is_balanced V = false := by
  by_cases hb : c.is_balanced V = true
  · exfalso
    apply hlen
    rw [BVCfg.is_balanced] at hb
    have hall := List.all_eq_true.mp hb
    have hcnt : ∀ i ∈ Finset.range c.modulus,
        V.count ((i : Nat) : ZMod c.modulus) = c.quotient := by
      intro i hi
      simpa using hall i (List.mem_range.mpr (Finset.mem_range.mp hi))
    calc V.length
        = ∑ i ∈ Finset.range c.modulus, V.count ((i : Nat) : ZMod c.modulus) :=
          (sum_count_eq_length c.modulus hm V).symm
      _ = ∑ _i ∈ Finset.range c.modulus, c.quotient := Finset.sum_congr rfl hcnt
      _ = c.modulus * c.quotient := by
          rw [Finset.sum_const, Finset.card_range, smul_eq_mul]
  · cases h2 : c.is_balanced V with
    | false => rfl
    | true => exact absurd h2 hb

/-- C10 witness: `C10_is_balanced_length` at the configuration `(4, 2)` on a
length-2 sequence. -/
theorem C10_is_balanced_length_witness :
    (BVCfg.mk 4 2).is_balanced [0, 1] = false :=
  C10_is_balanced_length (BVCfg.mk 4 2) [0, 1] (by decide) (by decide)

/-! Embedding of `Fuglede.py`, the class `SubsetPairs(modulus, dimension)`.
A point of the space (a `1 × dimension` sage matrix over the field) is
modelled as its list of coordinates, a `dimension × size` matrix by its
list of columns, each column being a point. -/

namespace SubsetPairs

/-- The enumeration of the base field used by the sage provider. -/
def ringElems (m : Nat) : List (ZMod m) :=
  (List.range m).map (fun (i : Nat) => (i : ZMod m))

/-- The fixed point enumeration `self.elements = list(self.space)`; sage
yields the points of the space in some fixed, repeatable order, modelled
here by coordinate-recursive enumeration. -/
def allPoints (m : Nat) : Nat → List (List (ZMod m))
  | 0 => [[]]
  | d + 1 => (ringElems m).flatMap (fun x => (allPoints m d).map (fun t => x :: t))

/-- The position `self.elements.index(p)` of a point in the fixed
enumeration. -/
def pointIndex (m d : Nat) (p : List (ZMod m)) : Nat :=
  (allPoints m d).findIdx (fun x => x == p)

/-- The iteration domain `MatrixSpace(self.field, self.dimension, size)` of
`subsets`: every matrix, given by its tuple of columns drawn from `pool`. -/
def allTuples {α : Type} (pool : List α) : Nat → List (List α)
  | 0 => [[]]
  | k + 1 => pool.flatMap (fun c => (allTuples pool k).map (fun t => c :: t))

/-- The `passing` test of `SubsetPairs.subsets`: `passing` survives the loop
over `i in range(size - 1)` iff the index of column `i` is strictly below
the index of column `i + 1` every time. -/
def colsIncreasing (m d size : Nat) (cols : List (List (ZMod m))) : Bool :=
  (List.range (size - 1)).all
    (fun i => decide (pointIndex m d (cols.getD i []) < pointIndex m d (cols.getD (i + 1) [])))

/-- The generator `SubsetPairs.subsets`. -/
def subsets (m d size : Nat) : List (List (List (ZMod m))) :=
  (allTuples (allPoints m d) size).filter (colsIncreasing m d size)

/-- Entrywise scalar multiple of a row, in particular the zero-point test
`0 * elem.columns()[0]` of `firstsets` and `secondsets`. -/
def scaleRow (m : Nat) (a : ZMod m) (row : List (ZMod m)) : List (ZMod m) :=
  row.map (fun x => a * x)

/-- Row operation of Gauss-Jordan elimination: `dst + a * src` entrywise. -/
def addMulRow (m : Nat) (dst src : List (ZMod m)) (a : ZMod m) : List (ZMod m) :=
  List.zipWith (fun x y => x + a * y) dst src

/-- Multiplicative inverse in the field, located by search over the element
enumeration: for the prime moduli the program uses, this is the field
inverse sage applies when reducing a row. -/
def fieldInv (m : Nat) (a : ZMod m) : ZMod m :=
  ((ringElems m).find? (fun y => a * y == 1)).getD 0

/-- Gauss-Jordan elimination over the field, processing columns left to
right (`fuel` counts the columns still to process, `c` is the current
column, `r` the next pivot row): the sage collaborator `Matrix.rref` made
explicit. -/
def rrefAux (m : Nat) : Nat → Nat → Nat → List (List (ZMod m)) → List (List (ZMod m))
  | 0, _, _, rows => rows
  | fuel + 1, c, r, rows =>
    match (List.range rows.length).find?
        (fun i => decide (r ≤ i) && ((rows.getD i []).getD c 0 != 0)) with
    | none => rrefAux m fuel (c + 1) r rows
    | some i =>
      let ri := rows.getD i []
      let rr := rows.getD r []
      let rows1 := (rows.set i rr).set r ri
      let piv := (rows1.getD r []).getD c 0
      let prow := scaleRow m (fieldInv m piv) (rows1.getD r [])
      let rows2 := (List.range rows1.length).map
        (fun j => if j = r then prow
                  else addMulRow m (rows1.getD j []) prow (-((rows1.getD j []).getD c 0)))
      rrefAux m fuel (c + 1) (r + 1) rows2

/-- Row-reduced echelon form of a matrix with `width` columns, given by its
rows. -/
def rref (m width : Nat) (rows : List (List (ZMod m))) : List (List (ZMod m)) :=
  rrefAux m width 0 0 rows

/-- The sage collaborator `Matrix.rank`: the number of nonzero rows of the
row-reduced form. -/
def rankOf (m width : Nat) (rows : List (List (ZMod m))) : Nat :=
  ((rref m width rows).filter (fun row => row.any (fun x => x != 0))).length

/-- The generator `SubsetPairs.firstsets`: keep the subsets whose first
column is the zero point, whose matrix is its own `rref`, and whose rank is
`min(size, self.dimension)`.  The matrix `elem` is row-major, hence the
transpose of the column list. -/
def firstsets (m d size : Nat) : List (List (List (ZMod m))) :=
  (subsets m d size).filter (fun cols =>
    (cols.getD 0 [] == scaleRow m 0 (cols.getD 0 [])) &&
    (rref m size cols.transpose == cols.transpose) &&
    (rankOf m size cols.transpose == min size d))

/-- The generator `SubsetPairs.secondsets`: keep the subsets whose first
column is the zero point. -/
def secondsets (m d size : Nat) : List (List (List (ZMod m))) :=
  (subsets m d size).filter (fun cols =>
    cols.getD 0 [] == scaleRow m 0 (cols.getD 0 []))

/-- Inner product of two coordinate lists over the ring. -/
def dot (m : Nat) (v w : List (ZMod m)) : ZMod m :=
  (List.zipWith (fun a b => a * b) v w).sum

/-- The method `SubsetPairs.loghadamard`: `E.transpose() * B`, whose
`(i, j)` entry pairs column `i` of `E` with column `j` of `B`; the result is
given by its list of rows. -/
def loghadamard (m : Nat) (E B : List (List (ZMod m))) : List (List (ZMod m)) :=
  E.map (fun e => B.map (fun b => dot m e b))

/-- The method `SubsetPairs.row_difference`, exactly as written: each loop
step reads `value = difference_vector[entry]`, indexing the difference
vector by the ring value of the entry; `none` models the `IndexError`
raised when such an index is out of range.  The final loop compares the
counters of consecutive values `i`, `i + 1` for `i in range(modulus - 1)`. -/
def row_difference (m : Nat) (row0 row1 : List (ZMod m)) : Option Bool :=
  let dv := List.zipWith (fun a b => a - b) row0 row1
  match dv.mapM (fun e => dv.get? e.val) with
  | none => none
  | some vals =>
    some ((List.range (m - 1)).all
      (fun i => vals.count ((i : Nat) : ZMod m) == vals.count (((i + 1 : Nat)) : ZMod m)))

/-- The index pairs `[(i,j) for i in range(size) for j in range(size)]` of
`runtest`. -/
def pairList (size : Nat) : List (Nat × Nat) :=
  (List.range size).flatMap (fun i => (List.range size).map (fun j => (i, j)))

/-- Inner row-pair loop of `runtest` on the matrix `H`: skip the diagonal,
stop with `false` at the first failing pair, propagate a crash of
`row_difference` as `none`. -/
def scanPairs (m : Nat) (H : List (List (ZMod m))) : List (Nat × Nat) → Option Bool
  | [] => some true
  | (i, j) :: rest =>
    if i ≠ j then
      match row_difference m (H.getD i []) (H.getD j []) with
      | none => none
      | some false => some false
      | some true => scanPairs m H rest
    else scanPairs m H rest

/-- Loop of `runtest` over `elem1 in S.secondsets(size)` for a fixed
`elem0`, collecting the reported triples `(elem0, elem1, H)`. -/
def runtestInner (m size : Nat) (e : List (List (ZMod m))) :
    List (List (List (ZMod m))) →
      Option (List (List (List (ZMod m)) × List (List (ZMod m)) × List (List (ZMod m))))
  | [] => some []
  | b :: rest =>
    match scanPairs m (loghadamard m e b) (pairList size) with
    | none => none
    | some true => (runtestInner m size e rest).map (fun l => (e, b, loghadamard m e b) :: l)
    | some false => runtestInner m size e rest

/-- Loop of `runtest` over `elem0 in S.firstsets(size)`. -/
def runtestOuter (m size : Nat) (bs : List (List (List (ZMod m)))) :
    List (List (List (ZMod m))) →
      Option (List (List (List (ZMod m)) × List (List (ZMod m)) × List (List (ZMod m))))
  | [] => some []
  | e :: rest =>
    match runtestInner m size e bs with
    | none => none
    | some l1 => (runtestOuter m size bs rest).map (fun l2 => l1 ++ l2)

/-- The method `SubsetPairs.runtest`.  The enumerated subsets come from the
module-level demonstration object `S` (the code calls `S.firstsets(size)`
and `S.secondsets(size)`, not `self.firstsets`): `envD` is the dimension of
that global object, and nothing of the receiver other than the shared
modulus enters the computation.  The returned list collects the reported
triples `(elem0, elem1, H)`; `none` models a crash inside
`row_difference`. -/
def runtest (m envD size : Nat) :
    Option (List (List (List (ZMod m)) × List (List (ZMod m)) × List (List (ZMod m)))) :=
  runtestOuter m size (secondsets m envD size) (firstsets m envD size)

end SubsetPairs

/-! Membership lemmas for the enumerations of `SubsetPairs`. -/

theorem mem_allPoints (m : Nat) (hm : 0 < m) :
    ∀ (d : Nat) (p : List (ZMod m)), p ∈ SubsetPairs.allPoints m d ↔ p.length = d := by
  intro d
  induction d with
  | zero =>
    intro p
    simp [SubsetPairs.allPoints, List.length_eq_zero]
  | succ d ih =>
    intro p
    constructor
    · intro hp
      rcases List.mem_flatMap.mp hp with ⟨x, _, hx⟩
      rcases List.mem_map.mp hx with ⟨t, ht, rfl⟩
      simp [(ih t).mp ht]
    · intro hp
      cases p with
      | nil => simp at hp
      | cons x t =>
        refine List.mem_flatMap.mpr ⟨x, ?_, List.mem_map.mpr ⟨t, (ih t).mpr ?_, rfl⟩⟩
        · haveI : NeZero m := ⟨hm.ne'⟩
          exact List.mem_map.mpr
            ⟨x.val, List.mem_range.mpr (ZMod.val_lt x), ZMod.natCast_rightInverse x⟩
        · simpa using hp

theorem mem_allTuples {α : Type} (pool : List α) :
    ∀ (k : Nat) (l : List α),
      l ∈ SubsetPairs.allTuples pool k ↔ l.length = k ∧ ∀ x ∈ l, x ∈ pool := by
  intro k
  induction k with
  | zero =>
    intro l
    constructor
    · intro hl
      have hl2 : l = [] := by simpa [SubsetPairs.allTuples] using hl
      subst hl2
      simp
    · rintro ⟨hlen, _⟩
      simp [SubsetPairs.allTuples, List.length_eq_zero.mp hlen]
  | succ k ih =>
    intro l
    constructor
    · intro hl
      rcases List.mem_flatMap.mp hl with ⟨c, hc, hx⟩
      rcases List.mem_map.mp hx with ⟨t, ht, rfl⟩
      rcases (ih t).mp ht with ⟨hlen, hmem⟩
      refine ⟨by simp [hlen], ?_⟩
      intro x hx2
      rcases List.mem_cons.mp hx2 with rfl | hx3
      · exact hc
      · exact hmem x hx3
    · rintro ⟨hlen, hmem⟩
      cases l with
      | nil => simp at hlen
      | cons c t =>
        refine List.mem_flatMap.mpr
          ⟨c, hmem c (List.mem_cons_self _ _),
           List.mem_map.mpr ⟨t, (ih t).mpr ⟨by simpa using hlen, ?_⟩, rfl⟩⟩
        intro x hx
        exact hmem x (List.mem_cons_of_mem _ hx)

/-! The zero-point test `col == 0 * col` of `firstsets` and `secondsets`. -/

theorem eq_scaleRow_zero_iff (m : Nat) (l : List (ZMod m)) :
    l = SubsetPairs.scaleRow m 0 l ↔ ∀ x ∈ l, x = 0 := by
  induction l with
  | nil => simp [SubsetPairs.scaleRow]
  | cons a l ih =>
    show a :: l = 0 * a :: SubsetPairs.scaleRow m 0 l ↔ ∀ x ∈ a :: l, x = 0
    rw [List.cons_eq_cons, zero_mul, ih]
    constructor
    · rintro ⟨ha, hl⟩ x hx
      rcases List.mem_cons.mp hx with rfl | hx2
      · exact ha
      · exact hl x hx2
    · intro h
      exact ⟨h a (List.mem_cons_self _ _), fun x hx => h x (List.mem_cons_of_mem _ hx)⟩

/-- C2 is a bug of the code, demonstrated here on the log-Hadamard matrix of
the subsets `E` with columns `(0,0,0), (1,0,0), (0,1,0), (0,0,1)` and `B`
with columns `(1,0,0), (1,0,0), (0,0,0), (0,0,0)` over `Z_2`: rows `1` and
`0` of `H` differ by `(1,1,0,0)`, whose by-value tally is balanced
(each of `0`, `1` appears twice), yet `row_difference` answers `False`
because it tallies `difference_vector[entry]` instead of `entry`. -/
theorem C2_row_difference_index_bug :
    (SubsetPairs.loghadamard 2 [[0, 0, 0], [1, 0, 0], [0, 1, 0], [0, 0, 1]]
        [[1, 0, 0], [1, 0, 0], [0, 0, 0], [0, 0, 0]]).getD 1 [] = [1, 1, 0, 0] ∧
    (SubsetPairs.loghadamard 2 [[0, 0, 0], [1, 0, 0], [0, 1, 0], [0, 0, 1]]
        [[1, 0, 0], [1, 0, 0], [0, 0, 0], [0, 0, 0]]).getD 0 [] = [0, 0, 0, 0] ∧
    SubsetPairs.row_difference 2 [1, 1, 0, 0] [0, 0, 0, 0] = some false ∧
    (List.zipWith (fun a b => a - b) ([1, 1, 0, 0] : List (ZMod 2)) [0, 0, 0, 0]).count 0 = 2 ∧
    (List.zipWith (fun a b => a - b) ([1, 1, 0, 0] : List (ZMod 2)) [0, 0, 0, 0]).count 1 = 2 := by
  refine ⟨?_, ?_, ?_, ?_, ?_⟩ <;> decide

/-- C3 is a bug of the code: `runtest` enumerates the subsets of the
module-global demonstration object `S = SubsetPairs(2, 3)` rather than the
receiver's own.  With that global in place (first conjunct, `envD = 3`)
`runtest(2)` reports nothing for any receiver, since `S.firstsets(2)` is
empty; had it used the subsets of a receiver `SubsetPairs(2, 1)` (second
conjunct, `envD = 1`) it would have reported exactly one triple. -/
theorem C3_runtest_reads_global :
    SubsetPairs.runtest 2 3 2 = some [] ∧
    SubsetPairs.runtest 2 1 2 =
      some [([[0], [1]], [[0], [1]], [[0, 0], [0, 1]])] := by
  refine ⟨?_, ?_⟩ <;> decide

/-- C4: a matrix is yielded by `subsets(size)` exactly when it is a
`size`-column matrix over the space whose columns are strictly increasing
with respect to the fixed point enumeration. -/
theorem C4_subsets_strictly_increasing (m d size : Nat) (hm : 0 < m)
    (cols : List (List (ZMod m))) :
    cols ∈ SubsetPairs.subsets m d size ↔
      cols.length = size ∧ (∀ p ∈ cols, p.length = d) ∧
      ∀ i, i + 1 < size →
        SubsetPairs.pointIndex m d (cols.getD i []) <
          SubsetPairs.pointIndex m d (cols.getD (i + 1) []) := by
  rw [SubsetPairs.subsets, List.mem_filter, mem_allTuples]
  constructor
  · rintro ⟨⟨hlen, hmem⟩, hinc⟩
    refine ⟨hlen, fun p hp => (mem_allPoints m hm d p).mp (hmem p hp), ?_⟩
    intro i hi
    have h := List.all_eq_true.mp hinc i (List.mem_range.mpr (by omega))
    simpa using h
  · rintro ⟨hlen, hmem, hinc⟩
    refine ⟨⟨hlen, fun p hp => (mem_allPoints m hm d p).mpr (hmem p hp)⟩, ?_⟩
    rw [SubsetPairs.colsIncreasing]
    apply List.all_eq_true.mpr
    intro i hi
    have hi2 : i + 1 < size := by
      have := List.mem_range.mp hi
      omega
    simpa using hinc i hi2

/-- C4 witness: `C4_subsets_strictly_increasing` applied to the space
`Z_2^1`: the pair of columns `(0), (1)` is a yielded subset. -/
theorem C4_subsets_strictly_increasing_witness :
    [[0], [1]] ∈ SubsetPairs.subsets 2 1 2 := by
  refine (C4_subsets_strictly_increasing 2 1 2 (by decide) [[0], [1]]).mpr
    ⟨rfl, by decide, ?_⟩
  intro i hi
  have h0 : i = 0 := by omega
  subst h0
  decide

/-- C5: `firstsets(size)` yields exactly the canonical subsets of
`subsets(size)` whose first column is the zero point, whose matrix is its
own row-reduced echelon form, and whose rank is `min(size, dimension)`;
`secondsets(size)` yields exactly those whose first column is the zero
point. -/
theorem C5_first_second_filters (m d size : Nat) (cols : List (List (ZMod m))) :
    (cols ∈ SubsetPairs.firstsets m d size ↔
      cols ∈ SubsetPairs.subsets m d size ∧
      (∀ x ∈ cols.getD 0 [], x = 0) ∧
      SubsetPairs.rref m size cols.transpose = cols.transpose ∧
      SubsetPairs.rankOf m size cols.transpose = min size d) ∧
    (cols ∈ SubsetPairs.secondsets m d size ↔
      cols ∈ SubsetPairs.subsets m d size ∧ ∀ x ∈ cols.getD 0 [], x = 0) := by
  constructor
  · rw [SubsetPairs.firstsets, List.mem_filter]
    simp only [Bool.and_eq_true, beq_iff_eq]
    rw [← eq_scaleRow_zero_iff]
    tauto
  · rw [SubsetPairs.secondsets, List.mem_filter]
    simp only [beq_iff_eq]
    rw [← eq_scaleRow_zero_iff]
